import Mathlib

/-!
Shallow embedding of `src/pyutils/bloom_filter.py`.

The Python module implements a Bloom filter: a salted-hash index stream
(`_make_aggregated_hash_function`), a capacity-guarded `add`, a membership
test `__contains__`, a batch `update`, and a binary codec
(`export_bytes` / `import_bytes`).

Modelling conventions:
  * Python `bytes` values are `List UInt8`; bit arrays are `List Bool`
    (the `bitarray` package with its default big-endian bit order).
  * Python exceptions become the `Err` type; fallible operations return
    `Except Err`.
  * The floating-point sizing layer (`num_slices`, `num_bits_per_slice`,
    computed with `math.log` / `math.ceil` over IEEE-754 doubles) is not
    reproduced bit-for-bit; instead the two derived integers are passed to
    the constructor explicitly, and the one fact about the sizing formula
    needed by a claim (capacity 0 forces `num_bits_per_slice = 0`) is
    stated over exact rationals, where it is rounding-independent.
  * The underlying hash constructor (`hashlib.sha3_256` by default) is an
    abstract `HashFunction`: a name, a digest size, and a digest map.
-/

/-- Python exceptions that the bloom-filter module can raise. -/
inductive Err where
  /-- `IndexError('The Bloom filter is at capacity. ...')` raised by `add`. -/
  | capacityExceeded
  /-- `IndexError` from indexing the bit array out of range. -/
  | bitIndexOutOfRange
  /-- `ZeroDivisionError`, e.g. from `% num_bits_per_slice` with a zero modulus. -/
  | zeroDivisionError
  /-- `struct.error` from `struct.pack` / `struct.unpack_from`. -/
  | structError
  /-- `AttributeError` from `getattr(hashlib, name)` when the name is unknown. -/
  | attributeError
  /-- `ValueError` from in-place OR of bitarrays of unequal length. -/
  | valueError
  deriving Repr, DecidableEq

/-- Abstraction of a `hashlib`-style hash constructor: `hf(data).digest()`
is `digest data`, `hf().digest_size` is `digestSize`, and
`hf.__name__.encode()` is `name`. -/
structure HashFunction where
  name : List UInt8
  digestSize : ℕ
  digest : List UInt8 → List UInt8

/-- Ceiling division on naturals, the exact value of Python
`ceil(a / b)` for positive `b` (the float division is exact at the
magnitudes the module uses). -/
def ceilDivNat (a b : ℕ) : ℕ := (a + b - 1) / b

/-- Byte size of the struct format code chosen by `_BitIndexNumberStruct`:
`'Q'` (8) when `num_slice_bits >= 1 << 31`, `'I'` (4) when
`num_slice_bits >= 1 << 15`, else `'H'` (2). -/
def bitIndexStructSize (numSliceBits : ℕ) : ℕ :=
  if numSliceBits ≥ 2 ^ 31 then 8 else if numSliceBits ≥ 2 ^ 15 then 4 else 2

/-- Modelled from the spec (§4.2 step 1), for comparison only: the claimed
index-word width in bits, the smallest of 16/32/64 able to represent
`bits_per_slice - 1`. -/
def specIndexWordBits (bitsPerSlice : ℕ) : ℕ :=
  if bitsPerSlice < 2 ^ 16 then 16 else if bitsPerSlice < 2 ^ 32 then 32 else 64

/-- Little-endian encoding of `n` into `k` bytes, as `struct.pack` with a
native-byte-order format code produces on the platforms the module targets. -/
def natToLE : ℕ → ℕ → List UInt8
  | 0, _ => []
  | k + 1, n => UInt8.ofNat (n % 256) :: natToLE k (n / 256)

/-- Value of a little-endian byte string, as `struct.unpack` with a
native-byte-order format code reads it. -/
def leToNat (bs : List UInt8) : ℕ := bs.foldr (fun b a => b.toNat + 256 * a) 0

/-- Big-endian encoding of `n` into `k` bytes (`struct.pack('>Q', n)` is
`natToBE 8 n`). -/
def natToBE : ℕ → ℕ → List UInt8
  | 0, _ => []
  | k + 1, n => natToBE k (n / 256) ++ [UInt8.ofNat (n % 256)]

/-- Value of a big-endian byte string (`struct.unpack('>Q', bs)`). -/
def beToNat (bs : List UInt8) : ℕ := bs.foldl (fun a b => a * 256 + b.toNat) 0

/-- One step of the aggregated-hash generator: for the pair
`(salt_index, hash_offset_index)`, hash the salted value, unpack one
index word (`struct.error` when the digest is too short for the implied
offset) and reduce it `% num_bits_per_slice` (`ZeroDivisionError` when the
modulus is zero, exactly as in Python). -/
def indexAt (hf : HashFunction) (numBitsPerSlice sz : ℕ) (value : List UInt8)
    (p : ℕ × ℕ) : Except Err ℕ :=
  let hv := hf.digest (natToLE 4 p.1 ++ value)
  if hv.length < p.2 * sz + sz then .error .structError
  else if numBitsPerSlice = 0 then .error .zeroDivisionError
  else .ok (leToNat ((hv.drop (p.2 * sz)).take sz) % numBitsPerSlice)

/-- Effectful map over a list in the `Except` monad, stopping at the first
error — the order in which a Python generator surfaces exceptions. -/
def mapExcept (f : α → Except Err β) : List α → Except Err (List β)
  | [] => .ok []
  | a :: as =>
    match f a with
    | .error e => .error e
    | .ok b =>
      match mapExcept f as with
      | .error e => .error e
      | .ok bs => .ok (b :: bs)

/-- The aggregated hash function of `_make_aggregated_hash_function`: the
ordered list of per-slice bit indices yielded for `value`.  The generator
walks salts `0, 1, ...` (packed with `struct.pack('I', i)`), takes
`digest_size // word_size` index words from each digest, and stops after
`num_slices` yields.  (When `digest_size // word_size = 0` Python already
raised `ZeroDivisionError` at construction, so no filter with that shape
exists; see `BloomFilter.mk'`.) -/
def indexStream (hf : HashFunction) (numSlices numBitsPerSlice : ℕ)
    (value : List UInt8) : Except Err (List ℕ) :=
  let sz := bitIndexStructSize numBitsPerSlice
  let perHash := hf.digestSize / sz
  let numSalts := ceilDivNat numSlices perHash
  let pairs :=
    ((List.range numSalts).flatMap fun i => (List.range perHash).map fun k => (i, k)).take numSlices
  mapExcept (indexAt hf numBitsPerSlice sz value) pairs

/-- Absolute bit offsets `slice_index * num_bits_per_slice + slice_bit_index`
for the enumerated index stream, starting at slice `s`. -/
def slicePositionsFrom (nB s : ℕ) : List ℕ → List ℕ
  | [] => []
  | lv :: rest => (s * nB + lv) :: slicePositionsFrom nB (s + 1) rest

/-- Absolute bit offsets probed for one value (`enumerate` starts at 0). -/
def slicePositions (nB : ℕ) (idxs : List ℕ) : List ℕ := slicePositionsFrom nB 0 idxs

/-- The read-then-set loop of `add`: record each probed bit's previous
status, then set it, in generator order. -/
def readMark (bs : List Bool) : List ℕ → List Bool × List Bool
  | [] => ([], bs)
  | p :: rest =>
    let s := bs.getD p false
    let r := readMark (bs.set p true) rest
    (s :: r.1, r.2)

/-- Setting every position in `ps` to `true`, the net bit-array effect of
one `add`. -/
def markBits (bs : List Bool) (ps : List ℕ) : List Bool := ps.foldl (fun a p => a.set p true) bs

/-- State of a `BloomFilter` object.  `fppBytes` is the stored false
positive probability, represented by its IEEE-754 binary32 encoding
(`struct.pack('f', p)`), the only form in which the codec observes it;
`numSlices` / `numBitsPerSlice` are the cached sizing integers. -/
structure BloomFilter where
  capacity : ℕ
  fppBytes : List UInt8
  hashFunction : HashFunction
  numSlices : ℕ
  numBitsPerSlice : ℕ
  numElementsMapped : ℕ
  bitArray : List Bool

/-- `BloomFilter.__init__` after the floating-point sizing layer: receives
the two cached sizing integers, builds the salted hash closure (raising
`ZeroDivisionError` when `digest_size // word_size` is zero and
`struct.error` when a salt exceeds the `'I'` range, as
`_make_aggregated_hash_function` does), allocates the zeroed bit array,
and ORs in the optional `bit_array` argument truncated to `bit_size`
(Python: `self._bit_array |= bit_array[:len(self._bit_array)]`, skipped
when `bit_array` is empty/falsy, `ValueError` when the lengths differ). -/
def BloomFilter.mk' (capacity : ℕ) (fppBytes : List UInt8) (hf : HashFunction)
    (numSlices numBitsPerSlice : ℕ) (bitArrayArg : List Bool) : Except Err BloomFilter :=
  let sz := bitIndexStructSize numBitsPerSlice
  let perHash := hf.digestSize / sz
  if perHash = 0 then .error .zeroDivisionError
  else if 2 ^ 32 < ceilDivNat numSlices perHash then .error .structError
  else
    let base := List.replicate (numSlices * numBitsPerSlice) false
    if bitArrayArg.length = 0 then
      .ok ⟨capacity, fppBytes, hf, numSlices, numBitsPerSlice, 0, base⟩
    else
      let sliced := bitArrayArg.take base.length
      if sliced.length = base.length then
        .ok ⟨capacity, fppBytes, hf, numSlices, numBitsPerSlice, 0,
          List.zipWith (fun a b => a || b) base sliced⟩
      else .error .valueError

/-- `BloomFilter.add`.  The capacity guard `_num_elements_mapped > capacity`
runs before anything else; then each probed bit's prior status is recorded
and the bit set; finally the element counter increments and the
conjunction of prior statuses is returned.  (Python would raise the
out-of-range `IndexError` mid-loop, keeping the bits set so far; that path
is unreachable for filters whose bit array has the sized length, which is
the only way the module builds them.) -/
def BloomFilter.add (f : BloomFilter) (value : List UInt8) :
    Except Err (Bool × BloomFilter) :=
  if f.capacity < f.numElementsMapped then .error .capacityExceeded
  else
    match indexStream f.hashFunction f.numSlices f.numBitsPerSlice value with
    | .error e => .error e
    | .ok idxs =>
      let positions := slicePositions f.numBitsPerSlice idxs
      if positions.all fun p => decide (p < f.bitArray.length) then
        let rm := readMark f.bitArray positions
        .ok (rm.1.all id,
          { f with bitArray := rm.2, numElementsMapped := f.numElementsMapped + 1 })
      else .error .bitIndexOutOfRange

/-- `BloomFilter.__contains__`: all probed bits set.  (Python's lazy
`all(...)` would suppress a late out-of-range error after an early
`False`; as for `add`, that path is unreachable for sized filters.) -/
def BloomFilter.containsM (f : BloomFilter) (value : List UInt8) : Except Err Bool :=
  match indexStream f.hashFunction f.numSlices f.numBitsPerSlice value with
  | .error e => .error e
  | .ok idxs =>
    let positions := slicePositions f.numBitsPerSlice idxs
    if positions.all fun p => decide (p < f.bitArray.length) then
      .ok (positions.all fun p => f.bitArray.getD p false)
    else .error .bitIndexOutOfRange

/-- `BloomFilter.update`: `tuple(self.add(value=value) for value in values)`.
The generator runs left to right; an exception from `add` propagates out
of `tuple(...)`, keeping the mutations already applied to `self` but
abandoning the rest of the batch, so the pair returned here carries the
object state reached at the point of the error. -/
def BloomFilter.update (f : BloomFilter) :
    List (List UInt8) → Except Err (List Bool) × BloomFilter
  | [] => (.ok [], f)
  | v :: vs =>
    match f.add v with
    | .error e => (.error e, f)
    | .ok (b, f') =>
      match f'.update vs with
      | (.error e, f'') => (.error e, f'')
      | (.ok bs, f'') => (.ok (b :: bs), f'')

/-- Object state after one attempted `add`: the new state on success, the
prior state when the call raises (the Python object survives the exception
unchanged on every reachable error path, which precedes any mutation). -/
def addKeep (f : BloomFilter) (w : List UInt8) : BloomFilter :=
  match f.add w with
  | .ok (_, g') => g'
  | .error _ => f

/-- Object state after attempting a sequence of `add` calls one at a time. -/
def BloomFilter.applyAdds (f : BloomFilter) (ws : List (List UInt8)) : BloomFilter :=
  ws.foldl addKeep f

/-- One packed byte of `bitarray.tobytes()`: at most eight bits, most
significant first, the final byte zero-padded on the right. -/
def bitsToByte (bits : List Bool) : UInt8 :=
  UInt8.ofNat
    ((bits ++ List.replicate (8 - bits.length) false).foldl
      (fun a b => 2 * a + cond b 1 0) 0)

/-- `bitarray.tobytes()`: pack the bits eight at a time. -/
def bytesFromBits : List Bool → List UInt8
  | [] => []
  | b :: rest => bitsToByte ((b :: rest).take 8) :: bytesFromBits ((b :: rest).drop 8)
  termination_by l => l.length
  decreasing_by simp [List.drop]; omega

/-- The eight bits of one byte, most significant first. -/
def byteToBits (b : UInt8) : List Bool := (List.range 8).map fun i => b.toNat.testBit (7 - i)

/-- `bitarray.frombytes(bs)` starting from an empty bitarray: every byte
contributes exactly eight bits. -/
def bitsFromBytes (bs : List UInt8) : List Bool := (bs.map byteToBits).flatten

/-- `struct.unpack_from` of one big-endian `width`-byte unsigned integer:
`struct.error` when fewer than `width` bytes remain past `offset`. -/
def unpackBE (width : ℕ) (data : List UInt8) (offset : ℕ) : Except Err ℕ :=
  if offset + width ≤ data.length then .ok (beToNat ((data.drop offset).take width))
  else .error .structError

/-- `struct.unpack_from` of one `width`-byte field kept as raw bytes (used
for the binary32 probability, whose numeric value the model leaves
opaque): `struct.error` when fewer than `width` bytes remain. -/
def readBytes (width : ℕ) (data : List UInt8) (offset : ℕ) : Except Err (List UInt8) :=
  if offset + width ≤ data.length then .ok ((data.drop offset).take width)
  else .error .structError

/-- `BloomFilter.export_bytes`: `>Q` capacity, binary32 probability, `>Q`
name length, name, `>Q` packed-bit-array length, packed bit array.
`struct.pack('>Q', n)` raises `struct.error` for values outside the
unsigned 64-bit range. -/
def BloomFilter.exportBytes (f : BloomFilter) : Except Err (List UInt8) :=
  let nameBytes := f.hashFunction.name
  let bitArrayBytes := bytesFromBits f.bitArray
  if f.capacity < 2 ^ 64 ∧ nameBytes.length < 2 ^ 64 ∧ bitArrayBytes.length < 2 ^ 64 then
    .ok (natToBE 8 f.capacity ++ f.fppBytes ++
      natToBE 8 nameBytes.length ++ nameBytes ++
      natToBE 8 bitArrayBytes.length ++ bitArrayBytes)
  else .error .structError

/-- `BloomFilter.import_bytes`.  The fixed-width fields go through
`struct.unpack_from` (which checks the remaining length); the two
variable-length fields are plain Python slices, which silently shorten
when the data runs out; the hash algorithm is the explicit argument if
given, else `getattr(hashlib, name)` modelled by the `lookup` registry;
`sizing` stands for the floating-point derivation of
`(num_slices, num_bits_per_slice)` from the decoded capacity and
probability, which the constructor then receives. -/
def BloomFilter.importBytes (sizing : ℕ → List UInt8 → ℕ × ℕ)
    (lookup : List UInt8 → Option HashFunction) (hashFunctionArg : Option HashFunction)
    (data : List UInt8) (baseOffset : ℕ) : Except Err BloomFilter :=
  match unpackBE 8 data baseOffset with
  | .error e => .error e
  | .ok capacity =>
    match readBytes 4 data (baseOffset + 8) with
    | .error e => .error e
    | .ok fppBytes =>
      match unpackBE 8 data (baseOffset + 12) with
      | .error e => .error e
      | .ok nameLen =>
        let name := (data.drop (baseOffset + 20)).take nameLen
        match unpackBE 8 data (baseOffset + 20 + nameLen) with
        | .error e => .error e
        | .ok bitLen =>
          let bitBytes := (data.drop (baseOffset + 28 + nameLen)).take bitLen
          let bits := bitsFromBytes bitBytes
          match (match hashFunctionArg with | some h => some h | none => lookup name) with
          | none => .error .attributeError
          | some hf =>
            let s := sizing capacity fppBytes
            BloomFilter.mk' capacity fppBytes hf s.1 s.2 bits

/-- `ceil(capacity * (-log2(p) / ln 2) / num_slices)` over exact rationals:
`bitsPerElement` stands for the positive real `-log2(p) / ln 2`.  Python
evaluates this in floating point, but at `capacity = 0` the product is an
exact IEEE zero and the ceiling exactly 0, independent of rounding. -/
def numBitsPerSliceQ (capacity : ℕ) (bitsPerElement : ℚ) (numSlices : ℕ) : ℤ :=
  ⌈(capacity : ℚ) * bitsPerElement / (numSlices : ℚ)⌉

/-- A hash constructor whose digest always has the declared size, as every
`hashlib` algorithm guarantees. -/
def HashFunction.WF (hf : HashFunction) : Prop :=
  ∀ m, (hf.digest m).length = hf.digestSize

/-- Example hash constructor standing in for `hashlib` entries in concrete
instantiations: name `b"x"`, 32-byte digests (like `sha3_256`). -/
def exHF : HashFunction := ⟨[120], 32, fun _ => List.replicate 32 0⟩

/-- Example sizing oracle: one slice of eight bits. -/
def exSizing : ℕ → List UInt8 → ℕ × ℕ := fun _ _ => (1, 8)

/-- Example `hashlib` registry containing only `exHF` under its name. -/
def exLookup : List UInt8 → Option HashFunction :=
  fun n => if n = [120] then some exHF else none

/-- Example binary32 probability bytes. -/
def exFpp : List UInt8 := [0, 0, 0, 63]

/-- Fallback filter value for the example extractors below. -/
def exFallback : BloomFilter := ⟨1, exFpp, exHF, 1, 8, 0, []⟩

/-- Freshly constructed example filter: capacity 1, one slice of 8 bits. -/
def exF0 : BloomFilter :=
  match BloomFilter.mk' 1 exFpp exHF 1 8 [] with
  | .ok g => g
  | .error _ => exFallback

/-- `exF0` after one successful `add`: element counter 1 = capacity. -/
def exF1 : BloomFilter :=
  match exF0.add [97] with
  | .ok (_, g) => g
  | .error _ => exFallback

/-- `exF1` after a second successful `add`: element counter 2 > capacity. -/
def exF2 : BloomFilter :=
  match exF1.add [98] with
  | .ok (_, g) => g
  | .error _ => exFallback

/-- Example import payload truncated inside the bit-array field: header
declares a one-byte bit array (30 bytes in total would be needed) but the
data ends after 29 bytes. -/
def exTruncData : List UInt8 :=
  natToBE 8 1 ++ exFpp ++ natToBE 8 1 ++ [120] ++ natToBE 8 1

/-! ### Byte-encoding lemmas -/

theorem length_natToBE (k n : ℕ) : (natToBE k n).length = k := by
  induction k generalizing n with
  | zero => rfl
  | succ k ih => simp [natToBE, ih]

theorem beToNat_append_one (xs : List UInt8) (b : UInt8) :
    beToNat (xs ++ [b]) = beToNat xs * 256 + b.toNat := by
  simp [beToNat, List.foldl_append]

theorem beToNat_natToBE (k n : ℕ) (h : n < 256 ^ k) : beToNat (natToBE k n) = n := by
  induction k generalizing n with
  | zero =>
    have : n = 0 := by simpa using h
    simp [this, natToBE, beToNat]
  | succ k ih =>
    have hdiv : n / 256 < 256 ^ k := by
      rw [Nat.div_lt_iff_lt_mul (by norm_num : 0 < 256)]
      calc n < 256 ^ (k + 1) := h
        _ = 256 ^ k * 256 := by ring
    have hb : (UInt8.ofNat (n % 256)).toNat = n % 256 := by
      have : n % 256 < 256 := Nat.mod_lt _ (by norm_num)
      show n % 256 % 256 = n % 256
      omega
    rw [natToBE, beToNat_append_one, ih _ hdiv, hb]
    omega

/-! ### Bit-array lemmas -/

theorem getD_set_true_of_lt (l : List Bool) (p : ℕ) (h : p < l.length) :
    (l.set p true).getD p false = true := by
  induction l generalizing p with
  | nil => simp at h
  | cons a l ih =>
    cases p with
    | zero => rfl
    | succ p =>
      simp only [List.set, List.getD, List.get?]
      exact ih p (by simpa using h)

theorem getD_set_true_mono (l : List Bool) (p q : ℕ) (h : l.getD q false = true) :
    (l.set p true).getD q false = true := by
  induction l generalizing p q with
  | nil => simp [List.getD] at h
  | cons a l ih =>
    cases p with
    | zero =>
      cases q with
      | zero => rfl
      | succ q => simpa [List.set, List.getD] using h
    | succ p =>
      cases q with
      | zero => simpa [List.set, List.getD] using h
      | succ q =>
        simp only [List.set, List.getD, List.get?] at h ⊢
        exact ih p q h

theorem length_markBits (bs : List Bool) (ps : List ℕ) :
    (markBits bs ps).length = bs.length := by
  induction ps generalizing bs with
  | nil => rfl
  | cons p ps ih => simp [markBits] at ih ⊢; rw [ih, List.length_set]

theorem markBits_mono (bs : List Bool) (ps : List ℕ) (q : ℕ)
    (h : bs.getD q false = true) : (markBits bs ps).getD q false = true := by
  induction ps generalizing bs with
  | nil => exact h
  | cons p ps ih =>
    simp only [markBits, List.foldl] at ih ⊢
    exact ih _ (getD_set_true_mono bs p q h)

theorem markBits_getD_of_mem (bs : List Bool) (ps : List ℕ) (q : ℕ)
    (hq : q ∈ ps) (hlt : q < bs.length) : (markBits bs ps).getD q false = true := by
  induction ps generalizing bs with
  | nil => simp at hq
  | cons p ps ih =>
    simp only [markBits, List.foldl] at ih ⊢
    rcases List.mem_cons.mp hq with rfl | hq
    · exact markBits_mono _ ps q (getD_set_true_of_lt bs q hlt)
    · exact ih (bs.set p true) hq (by simpa [List.length_set] using hlt)

theorem readMark_snd (bs : List Bool) (ps : List ℕ) :
    (readMark bs ps).2 = markBits bs ps := by
  induction ps generalizing bs with
  | nil => rfl
  | cons p ps ih => simp [readMark, markBits] at ih ⊢; exact ih _

/-! ### mapExcept lemmas -/

theorem mapExcept_ok_length (f : α → Except Err β) (l : List α) (ys : List β)
    (h : mapExcept f l = .ok ys) : ys.length = l.length := by
  induction l generalizing ys with
  | nil => simp [mapExcept] at h; simp [← h]
  | cons a as ih =>
    simp only [mapExcept] at h
    cases hf : f a with
    | error e => rw [hf] at h; exact absurd h (by simp)
    | ok b =>
      rw [hf] at h
      cases hm : mapExcept f as with
      | error e => rw [hm] at h; exact absurd h (by simp)
      | ok bs =>
        rw [hm] at h
        cases h
        simpa using ih bs hm

theorem mapExcept_ok_mem (f : α → Except Err β) (l : List α) (ys : List β)
    (h : mapExcept f l = .ok ys) (y : β) (hy : y ∈ ys) :
    ∃ x ∈ l, f x = .ok y := by
  induction l generalizing ys with
  | nil => simp [mapExcept] at h; subst h; simp at hy
  | cons a as ih =>
    simp only [mapExcept] at h
    cases hf : f a with
    | error e => rw [hf] at h; exact absurd h (by simp)
    | ok b =>
      rw [hf] at h
      cases hm : mapExcept f as with
      | error e => rw [hm] at h; exact absurd h (by simp)
      | ok bs =>
        rw [hm] at h
        cases h
        rcases List.mem_cons.mp hy with rfl | hy
        · exact ⟨a, List.mem_cons_self a as, hf⟩
        · rcases ih bs hm hy with ⟨x, hx, hfx⟩
          exact ⟨x, List.mem_cons_of_mem a hx, hfx⟩

theorem mapExcept_ok_of_all (f : α → Except Err β) (l : List α)
    (h : ∀ x ∈ l, ∃ y, f x = .ok y) : ∃ ys, mapExcept f l = .ok ys := by
  induction l with
  | nil => exact ⟨[], rfl⟩
  | cons a as ih =>
    rcases h a (List.mem_cons_self a as) with ⟨b, hb⟩
    rcases ih (fun x hx => h x (List.mem_cons_of_mem a hx)) with ⟨bs, hbs⟩
    exact ⟨b :: bs, by simp [mapExcept, hb, hbs]⟩

/-! ### Index-stream lemmas -/

theorem slicePositionsFrom_lt (nB N : ℕ) (idxs : List ℕ) (s : ℕ)
    (hb : ∀ x ∈ idxs, x < nB) (hN : s + idxs.length ≤ N) :
    ∀ p ∈ slicePositionsFrom nB s idxs, p < N * nB := by
  induction idxs generalizing s with
  | nil => intro p hp; simp [slicePositionsFrom] at hp
  | cons lv rest ih =>
    intro p hp
    simp only [slicePositionsFrom, List.mem_cons] at hp
    rcases hp with rfl | hp
    · have hlv : lv < nB := hb lv (by simp)
      have hs1 : s + 1 ≤ N := by simp at hN; omega
      calc s * nB + lv < s * nB + nB := by omega
        _ = (s + 1) * nB := by ring
        _ ≤ N * nB := Nat.mul_le_mul_right nB hs1
    · exact ih (s + 1) (fun x hx => hb x (List.mem_cons_of_mem _ hx))
        (by simp at hN ⊢; omega) p hp

theorem indexAt_ok_val (hf : HashFunction) (nB sz : ℕ) (v : List UInt8) (i k : ℕ)
    (hfit : k * sz + sz ≤ (hf.digest (natToLE 4 i ++ v)).length) (hnB : nB ≠ 0) :
    indexAt hf nB sz v (i, k) =
      .ok (leToNat (((hf.digest (natToLE 4 i ++ v)).drop (k * sz)).take sz) % nB) := by
  simp only [indexAt]
  rw [if_neg (by omega), if_neg hnB]

theorem indexAt_ok_lt (hf : HashFunction) (nB sz : ℕ) (v : List UInt8) (p : ℕ × ℕ) (x : ℕ)
    (h : indexAt hf nB sz v p = .ok x) (hnB : nB ≠ 0) : x < nB := by
  simp only [indexAt] at h
  by_cases h1 : (hf.digest (natToLE 4 p.1 ++ v)).length < p.2 * sz + sz
  · rw [if_pos h1] at h
    exact absurd h (by simp)
  · rw [if_neg h1, if_neg hnB] at h
    cases h
    exact Nat.mod_lt _ (Nat.pos_of_ne_zero hnB)

theorem indexStream_ok (hf : HashFunction) (nS nB : ℕ) (v : List UInt8)
    (hWFd : hf.WF) (hnB : nB ≠ 0) :
    ∃ idxs, indexStream hf nS nB v = .ok idxs ∧ idxs.length ≤ nS ∧ ∀ x ∈ idxs, x < nB := by
  have hok : ∀ p ∈ ((List.range (ceilDivNat nS (hf.digestSize / bitIndexStructSize nB))).flatMap
      fun i => (List.range (hf.digestSize / bitIndexStructSize nB)).map fun k => (i, k)).take nS,
      ∃ y, indexAt hf nB (bitIndexStructSize nB) v p = .ok y := by
    intro p hp
    have hp' := List.mem_of_mem_take hp
    rcases List.mem_flatMap.mp hp' with ⟨i, _, hk⟩
    rcases List.mem_map.mp hk with ⟨k, hk', rfl⟩
    have hklt : k < hf.digestSize / bitIndexStructSize nB := List.mem_range.mp hk'
    have hlen : (hf.digest (natToLE 4 i ++ v)).length = hf.digestSize := hWFd _
    have hfit : k * bitIndexStructSize nB + bitIndexStructSize nB ≤
        (hf.digest (natToLE 4 i ++ v)).length := by
      have h1 : (k + 1) * bitIndexStructSize nB ≤
          (hf.digestSize / bitIndexStructSize nB) * bitIndexStructSize nB :=
        Nat.mul_le_mul_right _ hklt
      have h2 : (hf.digestSize / bitIndexStructSize nB) * bitIndexStructSize nB ≤
          hf.digestSize := Nat.div_mul_le_self _ _
      rw [hlen]
      calc k * bitIndexStructSize nB + bitIndexStructSize nB
          = (k + 1) * bitIndexStructSize nB := by ring
        _ ≤ _ := le_trans h1 h2
    exact ⟨_, indexAt_ok_val hf nB _ v i k hfit hnB⟩
  rcases mapExcept_ok_of_all _ _ hok with ⟨idxs, hidxs⟩
  refine ⟨idxs, hidxs, ?_, ?_⟩
  · have hl := mapExcept_ok_length _ _ _ hidxs
    rw [hl]
    exact le_trans (List.length_take_le nS _) le_rfl
  · intro x hx
    rcases mapExcept_ok_mem _ _ _ hidxs x hx with ⟨⟨i, k⟩, _, hfx⟩
    exact indexAt_ok_lt hf nB _ v (i, k) x hfx hnB

/-! ### add / applyAdds lemmas -/

theorem add_ok_elim (f : BloomFilter) (v : List UInt8) (b : Bool) (f' : BloomFilter)
    (h : f.add v = .ok (b, f')) :
    f.numElementsMapped ≤ f.capacity ∧
    f'.capacity = f.capacity ∧ f'.fppBytes = f.fppBytes ∧
    f'.hashFunction = f.hashFunction ∧ f'.numSlices = f.numSlices ∧
    f'.numBitsPerSlice = f.numBitsPerSlice ∧
    f'.numElementsMapped = f.numElementsMapped + 1 ∧
    ∃ idxs, indexStream f.hashFunction f.numSlices f.numBitsPerSlice v = .ok idxs ∧
      (∀ p ∈ slicePositions f.numBitsPerSlice idxs, p < f.bitArray.length) ∧
      f'.bitArray = markBits f.bitArray (slicePositions f.numBitsPerSlice idxs) := by
  by_cases hcap : f.capacity < f.numElementsMapped
  · simp [BloomFilter.add, hcap] at h
  · simp only [BloomFilter.add] at h
    rw [if_neg hcap] at h
    cases hs : indexStream f.hashFunction f.numSlices f.numBitsPerSlice v with
    | error e => rw [hs] at h; simp at h
    | ok idxs =>
      rw [hs] at h
      simp only at h
      by_cases hall : (slicePositions f.numBitsPerSlice idxs).all
          (fun p => decide (p < f.bitArray.length)) = true
      · rw [if_pos hall] at h
        cases h
        refine ⟨by omega, rfl, rfl, rfl, rfl, rfl, rfl, idxs, rfl, ?_, ?_⟩
        · intro p hp
          simpa using List.all_eq_true.mp hall p hp
        · exact readMark_snd _ _
      · rw [if_neg hall] at h
        simp at h

theorem add_ok_exists (f : BloomFilter) (v : List UInt8)
    (hcap : f.numElementsMapped ≤ f.capacity) (hWFd : f.hashFunction.WF)
    (hnB : f.numBitsPerSlice ≠ 0)
    (hlen : f.bitArray.length = f.numSlices * f.numBitsPerSlice) :
    ∃ b f', f.add v = .ok (b, f') := by
  rcases indexStream_ok f.hashFunction f.numSlices f.numBitsPerSlice v hWFd hnB with
    ⟨idxs, hs, hle, hb⟩
  have hall : ∀ p ∈ slicePositions f.numBitsPerSlice idxs, p < f.bitArray.length := by
    intro p hp
    have := slicePositionsFrom_lt f.numBitsPerSlice f.numSlices idxs 0 hb (by omega) p hp
    rw [hlen]
    exact this
  refine ⟨(readMark f.bitArray (slicePositions f.numBitsPerSlice idxs)).1.all id,
    { f with bitArray := (readMark f.bitArray (slicePositions f.numBitsPerSlice idxs)).2,
             numElementsMapped := f.numElementsMapped + 1 }, ?_⟩
  simp only [BloomFilter.add]
  rw [if_neg (by omega), hs]
  simp only
  rw [if_pos (List.all_eq_true.mpr fun p hp => by simpa using hall p hp)]

theorem addKeep_of_ok (f : BloomFilter) (w : List UInt8) (b : Bool) (g : BloomFilter)
    (h : f.add w = .ok (b, g)) : addKeep f w = g := by
  simp [addKeep, h]

theorem addKeep_of_error (f : BloomFilter) (w : List UInt8) (e : Err)
    (h : f.add w = .error e) : addKeep f w = f := by
  simp [addKeep, h]

theorem applyAdds_cons (f : BloomFilter) (w : List UInt8) (ws : List (List UInt8)) :
    f.applyAdds (w :: ws) = (addKeep f w).applyAdds ws := rfl

theorem addKeep_preserves (f : BloomFilter) (w : List UInt8) :
    (addKeep f w).capacity = f.capacity ∧
    (addKeep f w).fppBytes = f.fppBytes ∧
    (addKeep f w).hashFunction = f.hashFunction ∧
    (addKeep f w).numSlices = f.numSlices ∧
    (addKeep f w).numBitsPerSlice = f.numBitsPerSlice ∧
    (addKeep f w).bitArray.length = f.bitArray.length ∧
    ∀ q, f.bitArray.getD q false = true → (addKeep f w).bitArray.getD q false = true := by
  cases ha : f.add w with
  | error e =>
    rw [addKeep_of_error f w e ha]
    exact ⟨rfl, rfl, rfl, rfl, rfl, rfl, fun q h => h⟩
  | ok bg =>
    rcases bg with ⟨b, g⟩
    rw [addKeep_of_ok f w b g ha]
    rcases add_ok_elim f w b g ha with ⟨-, h1, h2, h3, h4, h5, -, idxs, -, -, hbits⟩
    refine ⟨h1, h2, h3, h4, h5, ?_, ?_⟩
    · rw [hbits]
      exact length_markBits _ _
    · intro q hq
      rw [hbits]
      exact markBits_mono _ _ _ hq

theorem applyAdds_preserves (ws : List (List UInt8)) (f : BloomFilter) :
    (f.applyAdds ws).capacity = f.capacity ∧
    (f.applyAdds ws).fppBytes = f.fppBytes ∧
    (f.applyAdds ws).hashFunction = f.hashFunction ∧
    (f.applyAdds ws).numSlices = f.numSlices ∧
    (f.applyAdds ws).numBitsPerSlice = f.numBitsPerSlice ∧
    (f.applyAdds ws).bitArray.length = f.bitArray.length ∧
    ∀ q, f.bitArray.getD q false = true → (f.applyAdds ws).bitArray.getD q false = true := by
  induction ws generalizing f with
  | nil => exact ⟨rfl, rfl, rfl, rfl, rfl, rfl, fun q h => h⟩
  | cons w ws ih =>
    rw [applyAdds_cons]
    rcases addKeep_preserves f w with ⟨k1, k2, k3, k4, k5, k6, k7⟩
    rcases ih (addKeep f w) with ⟨h1, h2, h3, h4, h5, h6, h7⟩
    exact ⟨h1.trans k1, h2.trans k2, h3.trans k3, h4.trans k4, h5.trans k5, h6.trans k6,
      fun q hq => h7 q (k7 q hq)⟩

/-! ### Error-shape lemmas -/

theorem mapExcept_error_elim (f : α → Except Err β) (l : List α) (e : Err)
    (h : mapExcept f l = .error e) : ∃ x ∈ l, f x = .error e := by
  induction l with
  | nil => simp [mapExcept] at h
  | cons a as ih =>
    simp only [mapExcept] at h
    cases hf : f a with
    | error e' =>
      rw [hf] at h
      simp only at h
      cases h
      exact ⟨a, by simp, hf⟩
    | ok b =>
      rw [hf] at h
      cases hm : mapExcept f as with
      | error e2 =>
        rw [hm] at h
        simp only at h
        cases h
        rcases ih hm with ⟨x, hx, hfx⟩
        exact ⟨x, by simp [hx], hfx⟩
      | ok bs =>
        rw [hm] at h
        simp at h

theorem indexAt_error_shape (hf : HashFunction) (nB sz : ℕ) (v : List UInt8)
    (p : ℕ × ℕ) (e : Err) (h : indexAt hf nB sz v p = .error e) :
    e = .structError ∨ e = .zeroDivisionError := by
  simp only [indexAt] at h
  by_cases h1 : (hf.digest (natToLE 4 p.1 ++ v)).length < p.2 * sz + sz
  · rw [if_pos h1] at h
    simp at h
    exact Or.inl h.symm
  · rw [if_neg h1] at h
    by_cases h2 : nB = 0
    · rw [if_pos h2] at h
      simp at h
      exact Or.inr h.symm
    · rw [if_neg h2] at h
      simp at h

theorem indexStream_error_shape (hf : HashFunction) (nS nB : ℕ) (v : List UInt8)
    (e : Err) (h : indexStream hf nS nB v = .error e) :
    e = .structError ∨ e = .zeroDivisionError := by
  simp only [indexStream] at h
  rcases mapExcept_error_elim _ _ _ h with ⟨p, -, hp⟩
  exact indexAt_error_shape _ _ _ _ _ _ hp

theorem add_capacity_error_iff (f : BloomFilter) (v : List UInt8) :
    f.add v = .error .capacityExceeded ↔ f.capacity < f.numElementsMapped := by
  constructor
  · intro h
    by_contra hcap
    simp only [BloomFilter.add] at h
    rw [if_neg hcap] at h
    cases hs : indexStream f.hashFunction f.numSlices f.numBitsPerSlice v with
    | error e =>
      rw [hs] at h
      simp at h
      subst h
      rcases indexStream_error_shape _ _ _ _ _ hs with h' | h' <;> cases h'
    | ok idxs =>
      rw [hs] at h
      simp only at h
      by_cases hall : (slicePositions f.numBitsPerSlice idxs).all
          (fun p => decide (p < f.bitArray.length)) = true
      · rw [if_pos hall] at h
        simp at h
      · rw [if_neg hall] at h
        simp at h
  · intro hcap
    simp [BloomFilter.add, hcap]

/-! ### Claim C1 -/

/-- C1: for every filter and every value successfully inserted via `add`
(hence via `update`, which just iterates `add`), membership holds
immediately afterwards and keeps holding after any further sequence of
insertion attempts — the filter never produces a false negative. -/
theorem c1_no_false_negatives (f : BloomFilter) (v : List UInt8) (b : Bool)
    (f' : BloomFilter) (h : f.add v = .ok (b, f')) (ws : List (List UInt8)) :
    (f'.applyAdds ws).containsM v = .ok true := by
  rcases add_ok_elim f v b f' h with ⟨-, -, -, a3, a4, a5, -, idxs, hs, hall, hbits⟩
  rcases applyAdds_preserves ws f' with ⟨-, -, p3, p4, p5, p6, p7⟩
  have hsF : indexStream (f'.applyAdds ws).hashFunction (f'.applyAdds ws).numSlices
      (f'.applyAdds ws).numBitsPerSlice v = .ok idxs := by
    rw [p3, p4, p5, a3, a4, a5]
    exact hs
  have hnBeq : (f'.applyAdds ws).numBitsPerSlice = f.numBitsPerSlice := by rw [p5, a5]
  have hlenf' : f'.bitArray.length = f.bitArray.length := by
    rw [hbits]
    exact length_markBits _ _
  have htrue : ∀ p ∈ slicePositions f.numBitsPerSlice idxs,
      (f'.applyAdds ws).bitArray.getD p false = true := by
    intro p hp
    apply p7
    rw [hbits]
    exact markBits_getD_of_mem _ _ p hp (hall p hp)
  simp only [BloomFilter.containsM]
  rw [hsF]
  simp only
  rw [hnBeq]
  rw [if_pos (List.all_eq_true.mpr fun p hp => by
    simp only [decide_eq_true_eq]
    rw [p6, hlenf']
    exact hall p hp)]
  have : (slicePositions f.numBitsPerSlice idxs).all
      (fun p => (f'.applyAdds ws).bitArray.getD p false) = true :=
    List.all_eq_true.mpr fun p hp => htrue p hp
  rw [this]

/-- Witness for C1: the concrete filter `exF0` (capacity 1, one slice of
eight bits), the value `b"a"`, and one further insertion attempt. -/
theorem c1_no_false_negatives_witness :
    (exF1.applyAdds [[98]]).containsM [97] = .ok true :=
  c1_no_false_negatives exF0 [97] false exF1 rfl [[98]]

/-! ### Claims C3 and C4 -/

/-- C3 counterexample: `exF1` has `elements_inserted == capacity` (both 1),
yet the next `add` of a distinct value succeeds instead of failing with
`CapacityExceeded` — the guard only fires for strictly greater counters. -/
theorem c3_at_capacity_counterexample :
    exF1.numElementsMapped = exF1.capacity ∧ exF1.add [98] = .ok (true, exF2) :=
  ⟨rfl, rfl⟩

/-- C3 (amended): an insert into a filter with `elements_inserted == capacity`
does not raise `CapacityExceeded`; the guard raises exactly when
`elements_inserted > capacity` at entry, and then the object (bit array and
counter) is left unchanged from before the call. -/
theorem c3_capacity_boundary (f : BloomFilter) (v : List UInt8) :
    (f.numElementsMapped = f.capacity → f.add v ≠ .error .capacityExceeded) ∧
    (f.capacity < f.numElementsMapped →
      f.add v = .error .capacityExceeded ∧ f.applyAdds [v] = f) := by
  constructor
  · intro heq hc
    have := (add_capacity_error_iff f v).mp hc
    omega
  · intro hlt
    have herr := (add_capacity_error_iff f v).mpr hlt
    refine ⟨herr, ?_⟩
    show addKeep f v = f
    exact addKeep_of_error f v _ herr

/-- Witness for C3 (amended): the first conjunct at `exF1`
(counter = capacity = 1), the second at `exF2` (counter 2 > capacity 1). -/
theorem c3_capacity_boundary_witness :
    exF1.add [98] ≠ .error .capacityExceeded ∧
    exF2.add [99] = .error .capacityExceeded ∧ exF2.applyAdds [[99]] = exF2 :=
  ⟨(c3_capacity_boundary exF1 [98]).1 rfl,
    ((c3_capacity_boundary exF2 [99]).2 (by decide)).1,
    ((c3_capacity_boundary exF2 [99]).2 (by decide)).2⟩

/-- C4: `add` raises `CapacityExceeded` if and only if
`elements_inserted > capacity` at call entry (strictly greater), the guard
being the first statement of `add`, so on this failure path neither the
bit array nor the element counter changes — the object state is exactly
the pre-call state. -/
theorem c4_capacity_guard (f : BloomFilter) (v : List UInt8) :
    (f.add v = .error .capacityExceeded ↔ f.capacity < f.numElementsMapped) ∧
    (f.capacity < f.numElementsMapped → f.applyAdds [v] = f) := by
  refine ⟨add_capacity_error_iff f v, fun hlt => ?_⟩
  show addKeep f v = f
  exact addKeep_of_error f v _ ((add_capacity_error_iff f v).mpr hlt)

/-- Witness for C4 at `exF2` (counter 2, capacity 1). -/
theorem c4_capacity_guard_witness :
    (exF2.add [99] = .error .capacityExceeded ↔ exF2.capacity < exF2.numElementsMapped) ∧
    exF2.applyAdds [[99]] = exF2 :=
  ⟨(c4_capacity_guard exF2 [99]).1, (c4_capacity_guard exF2 [99]).2 (by decide)⟩

/-! ### Claim C6 -/

/-- C6 counterexample: at `bits_per_slice = 32768 = 2^15` (which is below
`2^16`, so the claim demands the 16-bit code `'H'`, size 2) the source
selects the 32-bit code `'I'` (size 4), because its branch tests
`>= 1 << 15`, not `>= 1 << 16`; `specIndexWordBits` records the claimed
rule for comparison. -/
theorem c6_width_counterexample :
    (32768 : ℕ) < 2 ^ 16 ∧ bitIndexStructSize 32768 ≠ 2 ∧
    bitIndexStructSize 32768 = 4 ∧ specIndexWordBits 32768 = 16 := by
  refine ⟨by norm_num, ?_, ?_, ?_⟩ <;> decide

/-- C6 (amended): the index-word width is 16-bit exactly when
`bits_per_slice < 2^15`, 32-bit exactly when
`2^15 <= bits_per_slice < 2^31`, and 64-bit exactly when
`bits_per_slice >= 2^31` — the thresholds in the code are `1 << 15` and
`1 << 31`, one bit short of the limits of the unsigned codes it selects. -/
theorem c6_width_thresholds (n : ℕ) :
    (bitIndexStructSize n = 2 ↔ n < 2 ^ 15) ∧
    (bitIndexStructSize n = 4 ↔ 2 ^ 15 ≤ n ∧ n < 2 ^ 31) ∧
    (bitIndexStructSize n = 8 ↔ 2 ^ 31 ≤ n) := by
  unfold bitIndexStructSize
  split_ifs with h1 h2 <;> refine ⟨?_, ?_, ?_⟩ <;> constructor <;> intro hx <;> omega

/-! ### Claim C7 -/

/-- C7 counterexample: on the capacity-1 filter `exF0`, a batch of four
values aborts at the third element — `CapacityExceeded` propagates out of
the tuple comprehension, no positional tuple of outcomes is produced, and
the fourth element is never attempted (the element counter stops at 2). -/
theorem c7_batch_abort_counterexample :
    (exF0.update [[97], [98], [99], [100]]).1 = .error .capacityExceeded ∧
    (exF0.update [[97], [98], [99], [100]]).2.numElementsMapped = 2 ∧
    exF0.capacity = 1 :=
  ⟨rfl, rfl, rfl⟩

/-- C7 (amended): `update` applies `add` to each element strictly left to
right, so it is equivalent to the corresponding repeated single inserts
while they succeed; but the first `add` failure aborts the batch — the
exception propagates, the insertions already performed persist, and the
remaining elements are not processed. -/
theorem c7_update_append (f : BloomFilter) (vs ws : List (List UInt8)) :
    f.update (vs ++ ws) =
      match f.update vs with
      | (.error e, f') => (.error e, f')
      | (.ok bs, f') =>
        match f'.update ws with
        | (.error e, f'') => (.error e, f'')
        | (.ok cs, f'') => (.ok (bs ++ cs), f'') := by
  induction vs generalizing f with
  | nil =>
    show f.update ws = _
    cases h : f.update ws with
    | mk r g =>
      cases r <;> simp [BloomFilter.update, h]
  | cons v vs ih =>
    simp only [List.cons_append, BloomFilter.update]
    split
    · rfl
    next b f' heq =>
      simp only [List.append_eq]
      rw [ih f']
      cases hu : f'.update vs with
      | mk r g =>
        cases r with
        | error e => rfl
        | ok bs =>
          simp only []
          cases hw : g.update ws with
          | mk r2 g2 =>
            cases r2 <;> rfl

/-! ### Constructor lemmas, claims C5 and C10 -/

theorem bitIndexStructSize_pos (nB : ℕ) : 0 < bitIndexStructSize nB := by
  unfold bitIndexStructSize
  split_ifs <;> norm_num

theorem mk'_ok (capacity : ℕ) (fpp : List UInt8) (hf : HashFunction) (nS nB : ℕ)
    (hd : bitIndexStructSize nB ≤ hf.digestSize)
    (hsalt : ceilDivNat nS (hf.digestSize / bitIndexStructSize nB) ≤ 2 ^ 32) :
    BloomFilter.mk' capacity fpp hf nS nB [] =
      .ok ⟨capacity, fpp, hf, nS, nB, 0, List.replicate (nS * nB) false⟩ := by
  have hperHash : hf.digestSize / bitIndexStructSize nB ≠ 0 := by
    have := (Nat.one_le_div_iff (bitIndexStructSize_pos nB)).mpr hd
    omega
  simp only [BloomFilter.mk']
  rw [if_neg hperHash, if_neg (by omega),
    if_pos (show ([] : List Bool).length = 0 from rfl)]

/-- C5 counterexample: constructing with capacity = 0 and a valid
probability (here one giving sizing `num_slices = 1`,
`bits_per_slice = 0`) succeeds and raises nothing — there is no
`InvalidConfiguration` guard anywhere in the constructor. -/
theorem c5_capacity_zero_constructs :
    BloomFilter.mk' 0 exFpp exHF 1 0 [] = .ok ⟨0, exFpp, exHF, 1, 0, 0, []⟩ := rfl

/-- C5 (amended): the constructor performs no configuration validation:
for every capacity — including 0 — and every cached sizing pair,
construction succeeds whenever the digest holds at least one index word
and the salt count fits `struct.pack('I', ...)` (always true for the
shipped hash functions).  A probability outside (0, 1) fails inside the
floating-point sizing layer (`math.log` domain `ValueError` for p <= 0,
`ZeroDivisionError` via `num_slices = 0` for p = 1) — no
`InvalidConfiguration` error exists in the code, and capacity-0 errors
surface only at first use (claim C10). -/
theorem c5_no_validation (capacity : ℕ) (fpp : List UInt8) (hf : HashFunction)
    (nS nB : ℕ) (hd : bitIndexStructSize nB ≤ hf.digestSize)
    (hsalt : ceilDivNat nS (hf.digestSize / bitIndexStructSize nB) ≤ 2 ^ 32) :
    ∃ g, BloomFilter.mk' capacity fpp hf nS nB [] = .ok g ∧
      g.capacity = capacity ∧ g.numElementsMapped = 0 ∧
      g.bitArray.length = nS * nB :=
  ⟨⟨capacity, fpp, hf, nS, nB, 0, List.replicate (nS * nB) false⟩,
    mk'_ok capacity fpp hf nS nB hd hsalt, rfl, rfl, by simp⟩

/-- Witness for C5 (amended) at capacity 0 with `exHF` and sizing (1, 0). -/
theorem c5_no_validation_witness :
    ∃ g, BloomFilter.mk' 0 exFpp exHF 1 0 [] = .ok g ∧
      g.capacity = 0 ∧ g.numElementsMapped = 0 ∧ g.bitArray.length = 1 * 0 :=
  c5_no_validation 0 exFpp exHF 1 0 (by decide) (by decide)

theorem indexAt_zero_nB (hf : HashFunction) (v : List UInt8)
    (hlen2 : 2 ≤ (hf.digest (natToLE 4 0 ++ v)).length) :
    indexAt hf 0 2 v (0, 0) = .error .zeroDivisionError := by
  simp only [indexAt]
  rw [if_neg (by omega)]
  simp

theorem indexStream_zero_nB (hf : HashFunction) (nS : ℕ) (v : List UInt8)
    (hWFd : hf.WF) (h2 : 2 ≤ hf.digestSize) (hnS : 1 ≤ nS) :
    indexStream hf nS 0 v = .error .zeroDivisionError := by
  obtain ⟨n, rfl⟩ : ∃ n, nS = n + 1 := ⟨nS - 1, by omega⟩
  have hP : 1 ≤ hf.digestSize / 2 := (Nat.one_le_div_iff (by norm_num)).mpr h2
  obtain ⟨p, hp⟩ : ∃ p, hf.digestSize / 2 = p + 1 := ⟨hf.digestSize / 2 - 1, by omega⟩
  have hSalts : 1 ≤ ceilDivNat (n + 1) (hf.digestSize / 2) := by
    unfold ceilDivNat
    rw [Nat.le_div_iff_mul_le (by omega)]
    omega
  obtain ⟨m, hm⟩ : ∃ m, ceilDivNat (n + 1) (hf.digestSize / 2) = m + 1 :=
    ⟨ceilDivNat (n + 1) (hf.digestSize / 2) - 1, by omega⟩
  simp only [indexStream]
  rw [show bitIndexStructSize 0 = 2 from rfl, hm, hp]
  simp only [List.range_succ_eq_map, List.flatMap_cons, List.map_cons, List.cons_append,
    List.take_succ_cons, mapExcept]
  rw [indexAt_zero_nB hf v (by rw [hWFd]; omega)]

/-- C10: with capacity = 0 and any probability in (0, 1) — so the positive
rational `bpe` standing for `-log2(p)/ln 2` and a slice count of at least
one — the sizing formula yields `bits_per_slice = 0` exactly (the
floating-point product `0 * bpe` is an exact zero, so this is
rounding-independent); the constructor then succeeds with a bit array of
total size 0, and every subsequent `add` or `contains` call fails with
`ZeroDivisionError` from the reduction `value mod bits_per_slice` — the
error surfaces at first use, not at construction. -/
theorem c10_capacity_zero_defers (fpp : List UInt8) (hf : HashFunction) (nS : ℕ)
    (bpe : ℚ) (hWFd : hf.WF) (h2 : 2 ≤ hf.digestSize) (hnS : 1 ≤ nS)
    (hsalt : ceilDivNat nS (hf.digestSize / 2) ≤ 2 ^ 32) :
    numBitsPerSliceQ 0 bpe nS = 0 ∧
    ∃ g, BloomFilter.mk' 0 fpp hf nS 0 [] = .ok g ∧ g.bitArray.length = 0 ∧
      ∀ v, g.add v = .error .zeroDivisionError ∧
        g.containsM v = .error .zeroDivisionError := by
  refine ⟨by simp [numBitsPerSliceQ],
    ⟨0, fpp, hf, nS, 0, 0, List.replicate (nS * 0) false⟩,
    mk'_ok 0 fpp hf nS 0 h2 hsalt, by simp, ?_⟩
  intro v
  have hstream := indexStream_zero_nB hf nS v hWFd h2 hnS
  constructor
  · simp [BloomFilter.add, hstream]
  · simp [BloomFilter.containsM, hstream]

/-- Witness for C10 with `exHF`, one slice, `bitsPerElement = 3/2`. -/
theorem c10_capacity_zero_defers_witness :
    numBitsPerSliceQ 0 (3 / 2) 1 = 0 ∧
    ∃ g, BloomFilter.mk' 0 exFpp exHF 1 0 [] = .ok g ∧ g.bitArray.length = 0 ∧
      ∀ v, g.add v = .error .zeroDivisionError ∧
        g.containsM v = .error .zeroDivisionError :=
  c10_capacity_zero_defers exFpp exHF 1 (3 / 2) (fun _ => rfl) (by decide) (by decide)
    (by decide)

/-! ### Packed bit-array length lemmas -/

theorem bytesFromBits_nil_iff (l : List Bool) : bytesFromBits l = [] ↔ l = [] := by
  cases l with
  | nil => simp [bytesFromBits]
  | cons b rest => rw [bytesFromBits]; simp

theorem length_le_8_mul_bytesFromBits (l : List Bool) :
    l.length ≤ 8 * (bytesFromBits l).length := by
  generalize hn : l.length = n
  induction n using Nat.strong_induction_on generalizing l with
  | _ n ih =>
    cases l with
    | nil => simp at hn; omega
    | cons b rest =>
      subst hn
      rw [bytesFromBits]
      have hdl : ((b :: rest).drop 8).length = rest.length + 1 - 8 := by
        simp [List.length_drop]
      by_cases h8 : rest.length + 1 ≤ 8
      · simp only [List.length_cons]
        omega
      · have hlt : ((b :: rest).drop 8).length < (b :: rest).length := by
          rw [hdl]
          simp only [List.length_cons]
          omega
        have h := ih ((b :: rest).drop 8).length hlt ((b :: rest).drop 8) rfl
        rw [hdl] at h
        simp only [List.length_cons] at *
        omega

theorem length_bytesFromBits_le (l : List Bool) :
    (bytesFromBits l).length ≤ l.length + 1 := by
  generalize hn : l.length = n
  induction n using Nat.strong_induction_on generalizing l with
  | _ n ih =>
    cases l with
    | nil =>
      simp_all [bytesFromBits]
      omega
    | cons b rest =>
      subst hn
      rw [bytesFromBits]
      have hdl : ((b :: rest).drop 8).length = rest.length + 1 - 8 := by
        simp [List.length_drop]
      by_cases h8 : rest.length + 1 ≤ 8
      · have hnil : (b :: rest).drop 8 = [] := by
          apply List.eq_nil_of_length_eq_zero
          omega
        rw [hnil]
        simp [bytesFromBits]
      · have hlt : ((b :: rest).drop 8).length < (b :: rest).length := by
          rw [hdl]
          simp only [List.length_cons]
          omega
        have h := ih ((b :: rest).drop 8).length hlt ((b :: rest).drop 8) rfl
        rw [hdl] at h
        simp only [List.length_cons] at *
        omega

theorem length_bitsFromBytes (bs : List UInt8) :
    (bitsFromBytes bs).length = 8 * bs.length := by
  induction bs with
  | nil => rfl
  | cons b rest ih =>
    simp only [bitsFromBytes, List.map_cons, List.flatten_cons, List.length_append,
      List.length_cons]
    rw [show (byteToBits b).length = 8 from rfl]
    simp only [bitsFromBytes] at ih
    omega

/-! ### Unpack helpers and claim C8 -/

theorem unpackBE_short (w : ℕ) (data : List UInt8) (off : ℕ)
    (h : data.length < off + w) : unpackBE w data off = .error .structError := by
  unfold unpackBE
  rw [if_neg (by omega)]

theorem unpackBE_long (w : ℕ) (data : List UInt8) (off : ℕ)
    (h : off + w ≤ data.length) :
    unpackBE w data off = .ok (beToNat ((data.drop off).take w)) := by
  unfold unpackBE
  rw [if_pos h]

theorem readBytes_short (w : ℕ) (data : List UInt8) (off : ℕ)
    (h : data.length < off + w) : readBytes w data off = .error .structError := by
  unfold readBytes
  rw [if_neg (by omega)]

theorem readBytes_long (w : ℕ) (data : List UInt8) (off : ℕ)
    (h : off + w ≤ data.length) :
    readBytes w data off = .ok ((data.drop off).take w) := by
  unfold readBytes
  rw [if_pos h]

/-- C8 counterexample: `exTruncData` declares a one-byte bit-array field
but ends before it (29 bytes present, 30 demanded), yet decode succeeds on
the partial data: the bit-array bytes are obtained by a silently
truncating Python slice, the resulting empty bitarray is falsy, and the
constructor returns a filter whose bits are all zero. -/
theorem c8_truncated_import_succeeds :
    exTruncData.length = 29 ∧
    unpackBE 8 exTruncData 21 = .ok 1 ∧
    BloomFilter.importBytes exSizing exLookup none exTruncData 0 =
      .ok ⟨1, exFpp, exHF, 1, 8, 0, List.replicate 8 false⟩ :=
  ⟨rfl, rfl, rfl⟩

/-- C8 (amended): only the fixed-width fields are length-checked: decode
fails with `struct.error` when the data ends inside the 20-byte header
(capacity, probability, name length) — and likewise at the later 8-byte
bit-array-length word, whose offset the declared name length shifts —
while the variable-length name and bit-array fields are read by silently
truncating slices, so data truncated inside the bit-array field can
decode successfully on partial data (the counterexample above). -/
theorem c8_header_truncation (S : ℕ → List UInt8 → ℕ × ℕ)
    (L : List UInt8 → Option HashFunction) (data : List UInt8) (off : ℕ)
    (h : data.length < off + 20) :
    BloomFilter.importBytes S L none data off = .error .structError := by
  simp only [BloomFilter.importBytes]
  by_cases h1 : off + 8 ≤ data.length
  · by_cases h2 : off + 8 + 4 ≤ data.length
    · rw [unpackBE_long 8 data off h1, readBytes_long 4 data (off + 8) h2,
        unpackBE_short 8 data (off + 12) (by omega)]
    · rw [unpackBE_long 8 data off h1, readBytes_short 4 data (off + 8) (by omega)]
  · rw [unpackBE_short 8 data off (by omega)]

/-- Witness for C8 (amended): a one-byte input fails the first header read. -/
theorem c8_header_truncation_witness :
    BloomFilter.importBytes exSizing exLookup none [0] 0 = .error .structError :=
  c8_header_truncation exSizing exLookup [0] 0 (by decide)

/-! ### update success lemma -/

theorem update_ok_of_room (vs : List (List UInt8)) (g : BloomFilter)
    (hWFd : g.hashFunction.WF) (hnB : g.numBitsPerSlice ≠ 0)
    (hlen : g.bitArray.length = g.numSlices * g.numBitsPerSlice)
    (hroom : g.numElementsMapped + vs.length ≤ g.capacity + 1) :
    ∃ bs, g.update vs = (.ok bs, g.applyAdds vs) := by
  induction vs generalizing g with
  | nil => exact ⟨[], rfl⟩
  | cons v vs ih =>
    have hcap : g.numElementsMapped ≤ g.capacity := by
      simp only [List.length_cons] at hroom
      omega
    rcases add_ok_exists g v hcap hWFd hnB hlen with ⟨b, g', ha⟩
    rcases add_ok_elim g v b g' ha with ⟨-, e1, -, e3, e4, e5, e6, idxs, -, -, hbits⟩
    have hWFd' : g'.hashFunction.WF := by rw [e3]; exact hWFd
    have hnB' : g'.numBitsPerSlice ≠ 0 := by rw [e5]; exact hnB
    have hlen' : g'.bitArray.length = g'.numSlices * g'.numBitsPerSlice := by
      rw [hbits, e4, e5, length_markBits]
      exact hlen
    have hroom' : g'.numElementsMapped + vs.length ≤ g'.capacity + 1 := by
      rw [e6, e1]
      simp only [List.length_cons] at hroom
      omega
    rcases ih g' hWFd' hnB' hlen' hroom' with ⟨bs, hu⟩
    refine ⟨b :: bs, ?_⟩
    simp only [BloomFilter.update]
    rw [ha]
    simp only []
    rw [hu]
    simp only []
    rw [applyAdds_cons, addKeep_of_ok g v b g' ha]

/-! ### Codec lemmas -/

theorem bitIndexStructSize_le_8 (nB : ℕ) : bitIndexStructSize nB ≤ 8 := by
  unfold bitIndexStructSize
  split_ifs <;> norm_num

theorem exportBytes_ok (f : BloomFilter) (hcap : f.capacity < 2 ^ 64)
    (hname : f.hashFunction.name.length < 2 ^ 64)
    (hbl : f.bitArray.length + 1 < 2 ^ 64) :
    f.exportBytes = .ok (natToBE 8 f.capacity ++ (f.fppBytes ++
      (natToBE 8 f.hashFunction.name.length ++ (f.hashFunction.name ++
      (natToBE 8 (bytesFromBits f.bitArray).length ++ bytesFromBits f.bitArray))))) := by
  have hFlt : (bytesFromBits f.bitArray).length < 2 ^ 64 := by
    have := length_bytesFromBits_le f.bitArray
    omega
  simp only [BloomFilter.exportBytes]
  rw [if_pos ⟨hcap, hname, hFlt⟩]
  simp [List.append_assoc]

theorem mk'_ok_len (capacity : ℕ) (fpp : List UInt8) (hf : HashFunction) (nS nB : ℕ)
    (arg : List Bool) (hd : bitIndexStructSize nB ≤ hf.digestSize)
    (hsalt : ceilDivNat nS (hf.digestSize / bitIndexStructSize nB) ≤ 2 ^ 32)
    (harg : arg.length = 0 ∨ nS * nB ≤ arg.length) :
    ∃ g, BloomFilter.mk' capacity fpp hf nS nB arg = .ok g ∧
      g.capacity = capacity ∧ g.fppBytes = fpp ∧ g.hashFunction = hf ∧
      g.numSlices = nS ∧ g.numBitsPerSlice = nB ∧ g.numElementsMapped = 0 ∧
      g.bitArray.length = nS * nB := by
  have hperHash : hf.digestSize / bitIndexStructSize nB ≠ 0 := by
    have := (Nat.one_le_div_iff (bitIndexStructSize_pos nB)).mpr hd
    omega
  simp only [BloomFilter.mk']
  rw [if_neg hperHash, if_neg (by omega)]
  by_cases h0 : arg.length = 0
  · rw [if_pos h0]
    exact ⟨_, rfl, rfl, rfl, rfl, rfl, rfl, rfl, by simp⟩
  · rw [if_neg h0]
    have hle : nS * nB ≤ arg.length := by
      rcases harg with h | h
      · omega
      · exact h
    have hcond : (arg.take (List.replicate (nS * nB) false).length).length =
        (List.replicate (nS * nB) false).length := by
      simp [List.length_take]
      omega
    rw [if_pos hcond]
    refine ⟨_, rfl, rfl, rfl, rfl, rfl, rfl, rfl, ?_⟩
    simp [List.length_zipWith, List.length_take]
    omega

theorem importBytes_concat (S : ℕ → List UInt8 → ℕ × ℕ)
    (L : List UInt8 → Option HashFunction) (h' : HashFunction)
    (A B C D E F : List UInt8)
    (hA : A.length = 8) (hB : B.length = 4) (hC : C.length = 8) (hE : E.length = 8)
    (capacity : ℕ)
    (hAv : beToNat A = capacity) (hCv : beToNat C = D.length)
    (hEv : beToNat E = F.length)
    (hlook : L D = some h') :
    BloomFilter.importBytes S L none (A ++ (B ++ (C ++ (D ++ (E ++ F))))) 0 =
      BloomFilter.mk' capacity B h' (S capacity B).1 (S capacity B).2
        (bitsFromBytes F) := by
  have hdata : (A ++ (B ++ (C ++ (D ++ (E ++ F))))).length =
      28 + D.length + F.length := by
    simp [List.length_append, hA, hB, hC, hE]
    omega
  have hd12 : (A ++ (B ++ (C ++ (D ++ (E ++ F))))).drop 12 = C ++ (D ++ (E ++ F)) := by
    rw [show (12 : ℕ) = 8 + 4 from rfl, ← List.drop_drop, List.drop_left' hA,
      List.drop_left' hB]
  have hd20 : (A ++ (B ++ (C ++ (D ++ (E ++ F))))).drop 20 = D ++ (E ++ F) := by
    rw [show (20 : ℕ) = 12 + 8 from rfl, ← List.drop_drop, hd12, List.drop_left' hC]
  have hd20D : (A ++ (B ++ (C ++ (D ++ (E ++ F))))).drop (20 + D.length) = E ++ F := by
    rw [← List.drop_drop, hd20, List.drop_left]
  have hd28D : (A ++ (B ++ (C ++ (D ++ (E ++ F))))).drop (28 + D.length) = F := by
    rw [show (28 : ℕ) + D.length = 20 + D.length + 8 from by omega, ← List.drop_drop,
      hd20D, List.drop_left' hE]
  simp only [BloomFilter.importBytes, Nat.zero_add]
  rw [unpackBE_long 8 _ 0 (by rw [hdata]; omega), List.drop_zero, List.take_left' hA, hAv]
  try simp only []
  rw [readBytes_long 4 _ 8 (by rw [hdata]; omega), List.drop_left' hA, List.take_left' hB]
  try simp only []
  rw [unpackBE_long 8 _ 12 (by rw [hdata]; omega), hd12, List.take_left' hC, hCv]
  try simp only []
  rw [hd20, List.take_left]
  rw [unpackBE_long 8 _ (20 + D.length) (by rw [hdata]; omega), hd20D,
    List.take_left' hE, hEv]
  try simp only []
  rw [hd28D, List.take_length]
  try simp only []
  rw [hlook]

theorem importBytes_exportBytes (S : ℕ → List UInt8 → ℕ × ℕ)
    (L : List UInt8 → Option HashFunction) (f : BloomFilter) (h' : HashFunction)
    (hcap : f.capacity < 2 ^ 64)
    (hfpp : f.fppBytes.length = 4)
    (hname : f.hashFunction.name.length < 2 ^ 64)
    (hbl : f.bitArray.length + 8 < 2 ^ 64)
    (hlook : L f.hashFunction.name = some h')
    (hsize : S f.capacity f.fppBytes = (f.numSlices, f.numBitsPerSlice))
    (hlen : f.bitArray.length = f.numSlices * f.numBitsPerSlice)
    (hdig : 8 ≤ h'.digestSize)
    (hsalt : ceilDivNat f.numSlices
      (h'.digestSize / bitIndexStructSize f.numBitsPerSlice) ≤ 2 ^ 32) :
    ∃ bytes g, f.exportBytes = .ok bytes ∧
      BloomFilter.importBytes S L none bytes 0 = .ok g ∧
      g.capacity = f.capacity ∧ g.fppBytes = f.fppBytes ∧
      g.hashFunction = h' ∧ g.numSlices = f.numSlices ∧
      g.numBitsPerSlice = f.numBitsPerSlice ∧ g.numElementsMapped = 0 ∧
      g.bitArray.length = f.bitArray.length := by
  have h2_64 : (256 : ℕ) ^ 8 = 2 ^ 64 := by norm_num
  have hFlt : (bytesFromBits f.bitArray).length < 2 ^ 64 := by
    have := length_bytesFromBits_le f.bitArray
    omega
  have hparse := importBytes_concat S L h'
    (natToBE 8 f.capacity) f.fppBytes (natToBE 8 f.hashFunction.name.length)
    f.hashFunction.name (natToBE 8 (bytesFromBits f.bitArray).length)
    (bytesFromBits f.bitArray)
    (length_natToBE 8 _) hfpp (length_natToBE 8 _) (length_natToBE 8 _)
    f.capacity
    (beToNat_natToBE 8 _ (by omega))
    (beToNat_natToBE 8 _ (by omega))
    (beToNat_natToBE 8 _ (by omega))
    hlook
  rw [hsize] at hparse
  have harg : (bitsFromBytes (bytesFromBits f.bitArray)).length = 0 ∨
      f.numSlices * f.numBitsPerSlice ≤ (bitsFromBytes (bytesFromBits f.bitArray)).length := by
    right
    rw [length_bitsFromBytes]
    rw [← hlen]
    exact length_le_8_mul_bytesFromBits f.bitArray
  obtain ⟨g, hmk, g1, g2, g3, g4, g5, g6, g7⟩ := mk'_ok_len f.capacity f.fppBytes h'
    f.numSlices f.numBitsPerSlice (bitsFromBytes (bytesFromBits f.bitArray))
    (le_trans (bitIndexStructSize_le_8 _) hdig) hsalt harg
  refine ⟨_, g, exportBytes_ok f hcap hname (by omega), ?_, g1, g2, g3, g4, g5, g6, ?_⟩
  · rw [hparse]
    exact hmk
  · rw [g7, hlen]

/-! ### Claim C9 -/

/-- C9: the element counter is not part of the serialized form —
`import_bytes(export_bytes(f))` succeeds (given a registry resolving the
exported name and a sizing layer that reproduces f's cached sizing, i.e.
no binary32 drift) and yields a filter whose `len()` is 0 regardless of
how many elements `f` had inserted, and which therefore accepts a full
further capacity's worth of inserts with every `add` succeeding — the
capacity guard cannot fire before the counter passes the capacity. -/
theorem c9_counter_not_serialized (S : ℕ → List UInt8 → ℕ × ℕ)
    (L : List UInt8 → Option HashFunction) (f : BloomFilter) (h' : HashFunction)
    (hcap : f.capacity < 2 ^ 64)
    (hfpp : f.fppBytes.length = 4)
    (hname : f.hashFunction.name.length < 2 ^ 64)
    (hbl : f.bitArray.length + 8 < 2 ^ 64)
    (hlook : L f.hashFunction.name = some h')
    (hsize : S f.capacity f.fppBytes = (f.numSlices, f.numBitsPerSlice))
    (hlen : f.bitArray.length = f.numSlices * f.numBitsPerSlice)
    (hdig : 8 ≤ h'.digestSize)
    (hsalt : ceilDivNat f.numSlices
      (h'.digestSize / bitIndexStructSize f.numBitsPerSlice) ≤ 2 ^ 32) :
    ∃ bytes g, f.exportBytes = .ok bytes ∧
      BloomFilter.importBytes S L none bytes 0 = .ok g ∧
      g.numElementsMapped = 0 ∧ g.capacity = f.capacity ∧
      ∀ vs : List (List UInt8), h'.WF → vs.length ≤ g.capacity →
        g.numBitsPerSlice ≠ 0 → (g.update vs).1.isOk = true := by
  obtain ⟨bytes, g, hexp, himp, g1, g2, g3, g4, g5, g6, g7⟩ :=
    importBytes_exportBytes S L f h' hcap hfpp hname hbl hlook hsize hlen hdig hsalt
  refine ⟨bytes, g, hexp, himp, g6, g1, ?_⟩
  intro vs hWF hroomlen hnB
  obtain ⟨bs, hu⟩ := update_ok_of_room vs g (by rw [g3]; exact hWF) hnB
    (by rw [g7, g4, g5, hlen]) (by omega)
  rw [hu]
  rfl

/-- Witness for C9 at `exF1` (one element inserted, counter 1), with the
example registry and sizing oracle. -/
theorem c9_counter_not_serialized_witness :
    ∃ bytes g, exF1.exportBytes = .ok bytes ∧
      BloomFilter.importBytes exSizing exLookup none bytes 0 = .ok g ∧
      g.numElementsMapped = 0 ∧ g.capacity = exF1.capacity ∧
      ∀ vs : List (List UInt8), exHF.WF → vs.length ≤ g.capacity →
        g.numBitsPerSlice ≠ 0 → (g.update vs).1.isOk = true :=
  c9_counter_not_serialized exSizing exLookup exF1 exHF (by decide) rfl (by decide)
    (by decide) rfl rfl rfl (by decide) (by decide)
